import Mathlib

/-!
Shallow embedding of `src/Tugas-Besar/tubes.py`: a projectile-motion
simulation (RK4 integration of an air-drag model) together with a two-pass
sweep over launch angles.

Modelling conventions:
* Python floats are modelled as real numbers; the 4-component numpy state
  vectors as functions `Fin 4 → ℝ`.
* The possibly nonterminating `while` loop of the trajectory simulator is
  modelled with an explicit fuel parameter: `none` means the loop has not
  exited within `fuel` iterations, so `= none` for every fuel models a loop
  that never terminates.
* numpy raises `IndexError` on out-of-bounds (negative) indexing; that is
  modelled with `Except EstErr`.  numpy float division by zero raises
  nothing (it silently produces a non-finite value); it is modelled by
  total real division (division by zero yielding the junk value `0`), so
  the error/no-error behaviour of the source is what the embedding tracks.
* The trajectory lists are built by `np.append` in the source; the
  embedding conses each new sample in front of the recursively produced
  tail, which yields the same front-to-back order.
-/

namespace Tubes

noncomputable section

/-- Gravity `g = 9.81` (tubes.py line 15). -/
def g : ℝ := 9.81

/-- Adiabatic air-density exponent `alpha = 2.5` (line 16). -/
def alpha : ℝ := 2.5

/-- Air-density parameter `a = 6.5 * 10 ** (-3)` (line 17). -/
def a : ℝ := 6.5 * 10 ^ (-3 : ℤ)

/-- Sea-level temperature `T_0 = 288` (line 18). -/
def T_0 : ℝ := 288

/-- Projectile mass `m = 50` (line 19). -/
def m : ℝ := 50

/-- Drag constant `B = 2 * 10 ** (-3)` (line 20). -/
def B : ℝ := 2 * 10 ^ (-3 : ℤ)

/-- Initial speed `v_0 = 1640` (line 21). -/
def v_0 : ℝ := 1640

/-- Wind vector `V = np.zeros(2)` (line 25). -/
def V : Fin 2 → ℝ := fun _ => 0

/-- `np.deg2rad`: degrees to radians. -/
def deg2rad (x : ℝ) : ℝ := x * (Real.pi / 180)

/-- The RHS `f` of the ODE system (lines 28–47).  Line 40 doubles each
velocity difference (`* 2`) inside the square root instead of squaring it;
the embedding reproduces that literally.  `k ** alpha` is real
exponentiation; `Real.sqrt` of a negative argument is `0`. -/
def f (w : Fin 4 → ℝ) : Fin 4 → ℝ :=
  let k : ℝ := 1 - a * w 1 / T_0
  let s : ℝ := Real.sqrt ((w 2 - V 0) * 2 + (w 3 - V 1) * 2)
  fun i =>
    if i = 0 then w 2
    else if i = 1 then w 3
    else if i = 2 then (if k > 0 then -B / m * k ^ alpha * (w 2 - V 0) * s else 0)
    else (if k > 0 then -B / m * k ^ alpha * (w 3 - V 1) * s - g else -g)

/-- Modelled from the spec: the physically correct drag RHS that squares the
velocity differences inside the square root (`(dx)^2`, the "true quadratic
drag" of section 4.1), written only to be compared with the source's `f`,
which doubles instead of squares. -/
def f_squared_model (w : Fin 4 → ℝ) : Fin 4 → ℝ :=
  let k : ℝ := 1 - a * w 1 / T_0
  let s : ℝ := Real.sqrt ((w 2 - V 0) ^ 2 + (w 3 - V 1) ^ 2)
  fun i =>
    if i = 0 then w 2
    else if i = 1 then w 3
    else if i = 2 then (if k > 0 then -B / m * k ^ alpha * (w 2 - V 0) * s else 0)
    else (if k > 0 then -B / m * k ^ alpha * (w 3 - V 1) * s - g else -g)

/-- One step of classical RK4 (lines 50–63), generic over the RHS. -/
def RK4_step (rhs : (Fin 4 → ℝ) → Fin 4 → ℝ) (w : Fin 4 → ℝ) (h : ℝ) : Fin 4 → ℝ :=
  let s1 := rhs w
  let s2 := rhs (w + (h / 2) • s1)
  let s3 := rhs (w + (h / 2) • s2)
  let s4 := rhs (w + h • s3)
  w + (h / 6) • (s1 + (2 : ℝ) • s2 + (2 : ℝ) • s3 + s4)

/-- Initial state for a launch (lines 65–73): position at the origin,
velocity `v0` resolved along the angle `theta` (degrees). -/
def shoot (theta v0 : ℝ) : Fin 4 → ℝ := fun i =>
  if i = 2 then v0 * Real.cos (deg2rad theta)
  else if i = 3 then v0 * Real.sin (deg2rad theta)
  else 0

/-- The simulation `while` loop of `projectile_motion` (lines 90–93) with
fuel: while `w[1] >= 0`, step with RK4 and append the new position to both
lists.  `none` = the loop did not exit within `fuel` iterations. -/
def pmLoop (h : ℝ) : ℕ → (Fin 4 → ℝ) → Option (List ℝ × List ℝ)
  | 0, w => if 0 ≤ w 1 then none else some ([], [])
  | n + 1, w =>
    if 0 ≤ w 1 then
      match pmLoop h n (RK4_step f w h) with
      | none => none
      | some (X, Y) => some (RK4_step f w h 0 :: X, RK4_step f w h 1 :: Y)
    else some ([], [])

/-- `projectile_motion(h, theta)` (lines 76–94) with fuel. -/
def projectile_motion (h theta : ℝ) (fuel : ℕ) : Option (List ℝ × List ℝ) :=
  pmLoop h fuel (shoot theta v_0)

/-- The runtime error the landing-point computation can raise: numpy
out-of-bounds (negative) indexing. -/
inductive EstErr where
  | indexError

/-- numpy negative indexing `l[-i]` (for `i ≥ 1`): the element at offset
`length - i`, or an `IndexError` when the index is out of range. -/
def negIdx (l : List ℝ) (i : ℕ) : Except EstErr ℝ :=
  if h : 1 ≤ i ∧ i ≤ l.length then Except.ok (l.get ⟨l.length - i, by omega⟩)
  else Except.error EstErr.indexError

/-- The landing-point estimator embedded in `find_optimal_angle`
(lines 111–112): `m = (y[-1] - y[-2]) / (x[-1] - x[-2])`,
`x_range = -y[-1] / m + x[-1]`, with the four array accesses evaluated in
source order.  The division itself is unguarded in the source (numpy float
division never raises), so only the indexing can fail. -/
def landing_range (x_list y_list : List ℝ) : Except EstErr ℝ :=
  match negIdx y_list 1 with
  | .error e => .error e
  | .ok y1 =>
    match negIdx y_list 2 with
    | .error e => .error e
    | .ok y2 =>
      match negIdx x_list 1 with
      | .error e => .error e
      | .ok x1 =>
        match negIdx x_list 2 with
        | .error e => .error e
        | .ok x2 =>
          let m := (y1 - y2) / (x1 - x2)
          .ok (-y1 / m + x1)

/-- Sequencing of the two effect layers carried by every simulate-estimate
call: `none` (the simulation ran out of fuel / would not terminate)
and a raised `EstErr` both abort the rest of the computation, exactly as a
hung loop or a Python exception would. -/
def withOE {α β : Type} (o : Option (Except EstErr α))
    (cont : α → Option (Except EstErr β)) : Option (Except EstErr β) :=
  match o with
  | none => none
  | some (.error e) => some (.error e)
  | some (.ok x) => cont x

/-- One simulate-and-estimate call (lines 109–112 and 124–127): run the
trajectory, then interpolate the landing range from its last two samples. -/
def simRange (h theta : ℝ) (fuel : ℕ) : Option (Except EstErr ℝ) :=
  match projectile_motion h theta fuel with
  | none => none
  | some (xl, yl) => some (landing_range xl yl)

/-- Specification combinator (not source code): the list of estimated
ranges of all angles in `l`, with the first failure aborting.  Used to
state the normal form of the coarse sweep. -/
def simRanges (h : ℝ) (fuel : ℕ) : List ℝ → Option (Except EstErr (List ℝ))
  | [] => some (.ok [])
  | theta :: rest =>
    withOE (simRange h theta fuel) fun x =>
      withOE (simRanges h fuel rest) fun xs => some (.ok (x :: xs))

/-- The record update of both sweep passes (lines 116–118 and 128–130):
given the running `(record, optimal_angle)` and a candidate
`(theta, x_range)`, replace the record iff `x_range >= record`. -/
def sweepUpd (p : ℝ × ℝ) (c : ℝ × ℝ) : ℝ × ℝ :=
  if c.2 ≥ p.1 then (c.2, c.1) else p

/-- The mutable state of the coarse pass (lines 103–107). -/
structure OptState where
  record : ℝ
  optimal_angle : ℝ
  theta_list : List ℝ
  range_list : List ℝ

/-- `record = 0`, `optimal_angle = 0`, empty lists (lines 103–107). -/
def initOptState : OptState := ⟨0, 0, [], []⟩

/-- Python `range(start, stop, step)` for a positive step. -/
def pyRange (start stop step : ℕ) : List ℕ :=
  (List.range ((stop - start + step - 1) / step)).map fun i => start + step * i

/-- The coarse-pass angles `range(1, 90, 2)` (line 108), as reals. -/
def coarseAngles : List ℝ := (pyRange 1 90 2).map fun n : ℕ => (n : ℝ)

/-- `np.linspace(lo, hi, num)` with the default inclusive endpoint. -/
def linspace (lo hi : ℝ) (num : ℕ) : List ℝ :=
  (List.range num).map fun i : ℕ => lo + (i : ℝ) * ((hi - lo) / ((num : ℝ) - 1))

/-- `np.linspace(optimal_angle - 2, optimal_angle + 2, 41)` (line 122). -/
def theta_list_smaller (opt : ℝ) : List ℝ := linspace (opt - 2) (opt + 2) 41

/-- The coarse `for theta in range(1, 90, 2)` loop (lines 108–118): simulate
and estimate each angle, append `(theta, x_range)` to the sample lists and
update the record via `sweepUpd`. -/
def coarseLoop (h : ℝ) (fuel : ℕ) : OptState → List ℝ → Option (Except EstErr OptState)
  | st, [] => some (.ok st)
  | st, theta :: rest =>
    withOE (simRange h theta fuel) fun x_range =>
      coarseLoop h fuel
        { record := (sweepUpd (st.record, st.optimal_angle) (theta, x_range)).1
          optimal_angle := (sweepUpd (st.record, st.optimal_angle) (theta, x_range)).2
          theta_list := st.theta_list ++ [theta]
          range_list := st.range_list ++ [x_range] } rest

/-- The refine `for theta_small in theta_list_smaller` loop (lines 123–130).
Line 124 calls `projectile_motion(h, theta)` with the coarse loop's stale
variable `theta` — not the candidate `theta_small` — so every iteration
simulates at `thetaStale`; only the record update sees `theta_small`. -/
def refineLoop (h : ℝ) (fuel : ℕ) (thetaStale : ℝ) :
    ℝ × ℝ → List ℝ → Option (Except EstErr (ℝ × ℝ))
  | p, [] => some (.ok p)
  | p, theta_small :: rest =>
    withOE (simRange h thetaStale fuel) fun x_range =>
      refineLoop h fuel thetaStale (sweepUpd p (theta_small, x_range)) rest

/-- `find_optimal_angle(h)` (lines 96–132) with fuel.  After the Python
coarse `for` loop the loop variable `theta` retains its final value — the
last element of `range(1, 90, 2)`, i.e. 89 — and the refine pass reads that
stale variable, modelled by passing `coarseAngles.getLastD 0` to
`refineLoop`. -/
def find_optimal_angle (h : ℝ) (fuel : ℕ) :
    Option (Except EstErr (List ℝ × List ℝ × ℝ)) :=
  withOE (coarseLoop h fuel initOptState coarseAngles) fun st =>
    withOE (refineLoop h fuel (coarseAngles.getLastD 0)
        (st.record, st.optimal_angle) (theta_list_smaller st.optimal_angle)) fun p =>
      some (.ok (st.theta_list, st.range_list, p.2))

end

/-! ## Component evaluation lemmas -/

lemma f_apply_zero (w : Fin 4 → ℝ) : f w 0 = w 2 := by simp [f]

lemma f_apply_one (w : Fin 4 → ℝ) : f w 1 = w 3 := by simp [f]

lemma f_apply_two (w : Fin 4 → ℝ) : f w 2 =
    (if 1 - a * w 1 / T_0 > 0 then
      -B / m * (1 - a * w 1 / T_0) ^ alpha * (w 2 - V 0) *
        Real.sqrt ((w 2 - V 0) * 2 + (w 3 - V 1) * 2)
     else 0) := by simp [f]

lemma f_apply_three (w : Fin 4 → ℝ) : f w 3 =
    (if 1 - a * w 1 / T_0 > 0 then
      -B / m * (1 - a * w 1 / T_0) ^ alpha * (w 3 - V 1) *
        Real.sqrt ((w 2 - V 0) * 2 + (w 3 - V 1) * 2) - g
     else -g) := by simp [f]

/-- When the (doubled) relative-speed argument under the square root is
nonpositive, the square root is `0`, so both drag terms vanish and the RHS
reduces to pure gravity whatever the sign of `k`. -/
lemma f_no_drag (w : Fin 4 → ℝ)
    (hs : (w 2 - V 0) * 2 + (w 3 - V 1) * 2 ≤ 0) :
    f w = ![w 2, w 3, 0, -g] := by
  have hsq : Real.sqrt ((w 2 - V 0) * 2 + (w 3 - V 1) * 2) = 0 :=
    Real.sqrt_eq_zero'.mpr hs
  funext i
  fin_cases i <;> simp [f, hsq, mul_zero, ite_self]

lemma RK4_step_zero (rhs : (Fin 4 → ℝ) → Fin 4 → ℝ) (w : Fin 4 → ℝ) :
    RK4_step rhs w 0 = w := by
  simp [RK4_step]

lemma shoot_apply_one (theta v0 : ℝ) : shoot theta v0 1 = 0 := by simp [shoot]

lemma pmLoop_exit (h : ℝ) (n : ℕ) (w : Fin 4 → ℝ) (hw : ¬ 0 ≤ w 1) :
    pmLoop h n w = some ([], []) := by
  cases n <;> simp [pmLoop, hw]

lemma pmLoop_h_zero (n : ℕ) : ∀ w : Fin 4 → ℝ, 0 ≤ w 1 → pmLoop 0 n w = none := by
  induction n with
  | zero => intro w hw; simp [pmLoop, hw]
  | succ n ih => intro w hw; simp [pmLoop, hw, RK4_step_zero, ih w hw]

lemma getLast?_cons_ne_nil {α : Type} (x : α) {l : List α} (hl : l ≠ []) :
    (x :: l).getLast? = l.getLast? := by
  cases l with
  | nil => exact absurd rfl hl
  | cons b t => rfl

/-- Everything the simulation loop guarantees about a terminating run that
starts on or above the ground: index-aligned samples, the head being the
state after the first RK4 step, all samples but the last on or above the
ground, and the last sample strictly below it. -/
lemma pmLoop_spec (h : ℝ) : ∀ (n : ℕ) (w : Fin 4 → ℝ) (X Y : List ℝ),
    0 ≤ w 1 → pmLoop h n w = some (X, Y) →
    X.length = Y.length ∧
    X.head? = some (RK4_step f w h 0) ∧
    Y.head? = some (RK4_step f w h 1) ∧
    Y ≠ [] ∧
    (∀ i, i + 1 < Y.length → 0 ≤ Y.getD i 0) ∧
    (∀ v, Y.getLast? = some v → v < 0) := by
  intro n
  induction n with
  | zero =>
    intro w X Y hw heq
    simp [pmLoop, hw] at heq
  | succ n ih =>
    intro w X Y hw heq
    simp only [pmLoop, if_pos hw] at heq
    cases hrec : pmLoop h n (RK4_step f w h) with
    | none => rw [hrec] at heq; cases heq
    | some p =>
      obtain ⟨X₁, Y₁⟩ := p
      rw [hrec] at heq
      simp only [Option.some.injEq, Prod.mk.injEq] at heq
      obtain ⟨hX, hY⟩ := heq
      subst hX; subst hY
      by_cases hy : 0 ≤ RK4_step f w h 1
      · obtain ⟨hlen, hXh, hYh, hne, hnn, hlast⟩ := ih (RK4_step f w h) X₁ Y₁ hy hrec
        refine ⟨by simp [hlen], rfl, rfl, by simp, ?_, ?_⟩
        · intro i hi
          cases i with
          | zero => simpa using hy
          | succ j =>
            rw [List.getD_cons_succ]
            exact hnn j (by simpa using hi)
        · intro v hv
          rw [getLast?_cons_ne_nil _ hne] at hv
          exact hlast v hv
      · have hx := pmLoop_exit h n (RK4_step f w h) hy
        rw [hx] at hrec
        simp only [Option.some.injEq, Prod.mk.injEq] at hrec
        obtain ⟨hX1, hY1⟩ := hrec
        subst hX1; subst hY1
        refine ⟨rfl, rfl, rfl, by simp, ?_, ?_⟩
        · intro i hi
          simp at hi
        · intro v hv
          have he : ([RK4_step f w h 1]).getLast? = some (RK4_step f w h 1) := rfl
          rw [he, Option.some.injEq] at hv
          rw [← hv]
          exact not_le.mp hy

/-! ## Claims -/

/-- Claim C7: for every RHS function and every state vector, the RK4 step
with step size `h = 0` returns the input state unchanged. -/
theorem RK4_step_h_zero_id (rhs : (Fin 4 → ℝ) → Fin 4 → ℝ) (w : Fin 4 → ℝ) :
    RK4_step rhs w 0 = w := RK4_step_zero rhs w

/-- Claim C3 (refuted — code bug): called with degenerate step size
`h = 0`, the trajectory simulator does not fail fast with an
invalid-parameter error; it never terminates.  In the fuel model:
for every launch angle and every fuel bound the loop is still running
(`none`), because no parameter check exists and the RK4 step with `h = 0`
leaves the state — hence the non-negative vertical position `0` — fixed. -/
theorem projectile_motion_h_zero_never_terminates (theta : ℝ) (fuel : ℕ) :
    projectile_motion 0 theta fuel = none :=
  pmLoop_h_zero fuel _ (le_of_eq (shoot_apply_one theta v_0).symm)

/-- Claim C6: whenever the air-density factor `k = 1 - a * altitude / T_0`
is nonpositive, the RHS applies no drag: zero horizontal acceleration and
pure-gravity vertical acceleration. -/
theorem f_nonpositive_k_pure_gravity (w : Fin 4 → ℝ)
    (hk : 1 - a * w 1 / T_0 ≤ 0) : f w 2 = 0 ∧ f w 3 = -g := by
  rw [f_apply_two, f_apply_three, if_neg (not_lt.mpr hk), if_neg (not_lt.mpr hk)]
  exact ⟨rfl, rfl⟩

/-- Witness for C6 at altitude 100000 (there `k < 0`). -/
theorem f_nonpositive_k_pure_gravity_witness :
    1 - a * (![(0:ℝ), 100000, 0, 0] : Fin 4 → ℝ) 1 / T_0 ≤ 0 ∧
    (f ![(0:ℝ), 100000, 0, 0] 2 = 0 ∧ f ![(0:ℝ), 100000, 0, 0] 3 = -g) := by
  have hk : 1 - a * (![(0:ℝ), 100000, 0, 0] : Fin 4 → ℝ) 1 / T_0 ≤ 0 := by
    norm_num [a, T_0]
  exact ⟨hk, f_nonpositive_k_pure_gravity _ hk⟩

lemma f_squared_model_apply_two (w : Fin 4 → ℝ) : f_squared_model w 2 =
    (if 1 - a * w 1 / T_0 > 0 then
      -B / m * (1 - a * w 1 / T_0) ^ alpha * (w 2 - V 0) *
        Real.sqrt ((w 2 - V 0) ^ 2 + (w 3 - V 1) ^ 2)
     else 0) := by simp [f_squared_model]

/-- Claim C2: in the valid-atmosphere branch the RHS scales both drag terms
by the relative speed `s = sqrt((vx - windx) * 2 + (vy - windy) * 2)` —
scalar doubling, not squaring, inside the square root — and this doubled
variant really differs from the squared variant (shown at the state with
`vx = 8`, where the doubled speed is `4` and the squared one is `8`). -/
theorem f_scalar_doubling (w : Fin 4 → ℝ) (hk : 0 < 1 - a * w 1 / T_0) :
    (f w 2 = -B / m * (1 - a * w 1 / T_0) ^ alpha * (w 2 - V 0) *
        Real.sqrt ((w 2 - V 0) * 2 + (w 3 - V 1) * 2) ∧
     f w 3 = -B / m * (1 - a * w 1 / T_0) ^ alpha * (w 3 - V 1) *
        Real.sqrt ((w 2 - V 0) * 2 + (w 3 - V 1) * 2) - g) ∧
    f ![0, 0, 8, 0] 2 ≠ f_squared_model ![0, 0, 8, 0] 2 := by
  refine ⟨⟨?_, ?_⟩, ?_⟩
  · rw [f_apply_two, if_pos hk]
  · rw [f_apply_three, if_pos hk]
  · rw [f_apply_two, f_squared_model_apply_two]
    have e1 : (![(0:ℝ), 0, 8, 0] : Fin 4 → ℝ) 1 = 0 := rfl
    have e2 : (![(0:ℝ), 0, 8, 0] : Fin 4 → ℝ) 2 = 8 := rfl
    have e3 : (![(0:ℝ), 0, 8, 0] : Fin 4 → ℝ) 3 = 0 := rfl
    rw [e1, e2, e3, show (1 : ℝ) - a * 0 / T_0 = 1 by norm_num,
      if_pos one_pos, if_pos one_pos, Real.one_rpow]
    have h1 : Real.sqrt (((8:ℝ) - V 0) * 2 + ((0:ℝ) - V 1) * 2) = 4 := by
      rw [show ((8:ℝ) - V 0) * 2 + ((0:ℝ) - V 1) * 2 = 4 ^ 2 by norm_num [V]]
      exact Real.sqrt_sq (by norm_num)
    have h2 : Real.sqrt (((8:ℝ) - V 0) ^ 2 + ((0:ℝ) - V 1) ^ 2) = 8 := by
      rw [show ((8:ℝ) - V 0) ^ 2 + ((0:ℝ) - V 1) ^ 2 = 8 ^ 2 by norm_num [V]]
      exact Real.sqrt_sq (by norm_num)
    rw [h1, h2]
    norm_num [B, m, V]

/-- Witness for C2 at the state `(0, 0, 8, 0)` (there `k = 1 > 0`). -/
theorem f_scalar_doubling_witness :
    (0 < 1 - a * (![(0:ℝ), 0, 8, 0] : Fin 4 → ℝ) 1 / T_0) ∧
    ((f ![(0:ℝ), 0, 8, 0] 2 =
        -B / m * (1 - a * (![(0:ℝ), 0, 8, 0] : Fin 4 → ℝ) 1 / T_0) ^ alpha *
          ((![(0:ℝ), 0, 8, 0] : Fin 4 → ℝ) 2 - V 0) *
          Real.sqrt (((![(0:ℝ), 0, 8, 0] : Fin 4 → ℝ) 2 - V 0) * 2 +
            ((![(0:ℝ), 0, 8, 0] : Fin 4 → ℝ) 3 - V 1) * 2) ∧
      f ![(0:ℝ), 0, 8, 0] 3 =
        -B / m * (1 - a * (![(0:ℝ), 0, 8, 0] : Fin 4 → ℝ) 1 / T_0) ^ alpha *
          ((![(0:ℝ), 0, 8, 0] : Fin 4 → ℝ) 3 - V 1) *
          Real.sqrt (((![(0:ℝ), 0, 8, 0] : Fin 4 → ℝ) 2 - V 0) * 2 +
            ((![(0:ℝ), 0, 8, 0] : Fin 4 → ℝ) 3 - V 1) * 2) - g) ∧
     f ![0, 0, 8, 0] 2 ≠ f_squared_model ![0, 0, 8, 0] 2) := by
  have hk : 0 < 1 - a * (![(0:ℝ), 0, 8, 0] : Fin 4 → ℝ) 1 / T_0 := by
    norm_num [a, T_0]
  exact ⟨hk, f_scalar_doubling _ hk⟩

/-- Claim C10: the RHS is independent of the horizontal position (component
0) of the state: two states agreeing on altitude and both velocity
components get identical derivative vectors. -/
theorem f_ignores_horizontal_position (w w' : Fin 4 → ℝ)
    (h1 : w 1 = w' 1) (h2 : w 2 = w' 2) (h3 : w 3 = w' 3) : f w = f w' := by
  funext i
  simp only [f]
  rw [h1, h2, h3]

/-- Witness for C10: two states differing only in horizontal position. -/
theorem f_ignores_horizontal_position_witness :
    ((![(5:ℝ), 0, 0, 0] : Fin 4 → ℝ) 1 = (![(0:ℝ), 0, 0, 0] : Fin 4 → ℝ) 1 ∧
     (![(5:ℝ), 0, 0, 0] : Fin 4 → ℝ) 2 = (![(0:ℝ), 0, 0, 0] : Fin 4 → ℝ) 2 ∧
     (![(5:ℝ), 0, 0, 0] : Fin 4 → ℝ) 3 = (![(0:ℝ), 0, 0, 0] : Fin 4 → ℝ) 3) ∧
    f ![5, 0, 0, 0] = f ![0, 0, 0, 0] :=
  ⟨⟨rfl, rfl, rfl⟩, f_ignores_horizontal_position _ _ rfl rfl rfl⟩

/-- Claim C4 (refuted — code bug): on a trajectory whose final two samples
have equal x-positions, the landing-point estimator does not fail with a
numeric error: the slope division by zero is performed silently and a
result is returned (`Except.ok`).  (numpy float division never raises; the
real-number model makes the quotient the junk value `0`, and the
error/no-error behaviour is what is asserted here.) -/
theorem landing_range_equal_x_no_error :
    landing_range [(1:ℝ), 1] [(1:ℝ), -1] = Except.ok 1 := by
  norm_num [landing_range, negIdx, List.get]

/-- Claim C5: on a trajectory with fewer than two samples the landing-point
estimator fails with the out-of-range indexing error instead of reading
out-of-range samples. -/
theorem landing_range_short_trajectory (x_list y_list : List ℝ)
    (hy : y_list.length < 2) :
    landing_range x_list y_list = Except.error EstErr.indexError := by
  match y_list, hy with
  | [], _ => simp [landing_range, negIdx]
  | [y], _ => simp [landing_range, negIdx]

/-- Witness for C5: a one-sample trajectory. -/
theorem landing_range_short_trajectory_witness :
    ([(0:ℝ)].length < 2) ∧
    landing_range [(0:ℝ)] [(0:ℝ)] = Except.error EstErr.indexError :=
  ⟨by norm_num, landing_range_short_trajectory _ _ (by norm_num)⟩

/-- Claim C9: every terminating simulator run returns index-aligned x- and
y-sequences of equal length at least 1, whose first sample is the state
after one RK4 step (the launch origin is not included), with every y-sample
before the last non-negative and the last y-sample strictly negative. -/
theorem projectile_motion_invariants (h theta : ℝ) (fuel : ℕ) (X Y : List ℝ)
    (hpm : projectile_motion h theta fuel = some (X, Y)) :
    X.length = Y.length ∧ 1 ≤ X.length ∧
    X.head? = some (RK4_step f (shoot theta v_0) h 0) ∧
    Y.head? = some (RK4_step f (shoot theta v_0) h 1) ∧
    (∀ i, i + 1 < Y.length → 0 ≤ Y.getD i 0) ∧
    (∀ v, Y.getLast? = some v → v < 0) := by
  have h0 : 0 ≤ shoot theta v_0 1 := le_of_eq (shoot_apply_one theta v_0).symm
  obtain ⟨hlen, hXh, hYh, hne, hnn, hlast⟩ := pmLoop_spec h fuel _ X Y h0 hpm
  refine ⟨hlen, ?_, hXh, hYh, hnn, hlast⟩
  rw [hlen]
  exact List.length_pos.mpr hne


lemma shoot_neg45 : shoot (-45) v_0 =
    ![0, 0, 820 * Real.sqrt 2, -(820 * Real.sqrt 2)] := by
  have harg : deg2rad (-45) = -(Real.pi / 4) := by unfold deg2rad; ring
  funext i
  fin_cases i
  · simp [shoot]
  · simp [shoot]
  · simp [shoot, harg, Real.cos_neg, Real.cos_pi_div_four, v_0]
    ring
  · simp [shoot, harg, Real.sin_neg, Real.sin_pi_div_four, v_0]
    ring

lemma RK4_wit : RK4_step f ![0, 0, 820 * Real.sqrt 2, -(820 * Real.sqrt 2)] 1 =
    ![820 * Real.sqrt 2, -(820 * Real.sqrt 2) - g / 2,
      820 * Real.sqrt 2, -(820 * Real.sqrt 2) - g] := by
  have hg : (0 : ℝ) < g := by norm_num [g]
  set c : ℝ := 820 * Real.sqrt 2 with hc
  have hs1 : f ![0, 0, c, -c] = ![c, -c, 0, -g] := by
    have h := f_no_drag ![0, 0, c, -c] (by simp [V])
    exact h
  have hst2 : (![0, 0, c, -c] : Fin 4 → ℝ) + ((1:ℝ) / 2) • ![c, -c, 0, -g] =
      ![c / 2, -c / 2, c, -c - g / 2] := by
    funext i; fin_cases i <;> simp <;> ring
  have hs2 : f ![c / 2, -c / 2, c, -c - g / 2] = ![c, -c - g / 2, 0, -g] := by
    have h := f_no_drag ![c / 2, -c / 2, c, -c - g / 2] (by simp [V]; linarith)
    exact h
  have hst3 : (![0, 0, c, -c] : Fin 4 → ℝ) + ((1:ℝ) / 2) • ![c, -c - g / 2, 0, -g] =
      ![c / 2, (-c - g / 2) / 2, c, -c - g / 2] := by
    funext i; fin_cases i <;> simp <;> ring
  have hs3 : f ![c / 2, (-c - g / 2) / 2, c, -c - g / 2] = ![c, -c - g / 2, 0, -g] := by
    have h := f_no_drag ![c / 2, (-c - g / 2) / 2, c, -c - g / 2] (by simp [V]; linarith)
    exact h
  have hst4 : (![0, 0, c, -c] : Fin 4 → ℝ) + (1:ℝ) • ![c, -c - g / 2, 0, -g] =
      ![c, -c - g / 2, c, -c - g] := by
    funext i; fin_cases i <;> (simp; try ring)
  have hs4 : f ![c, -c - g / 2, c, -c - g] = ![c, -c - g, 0, -g] := by
    have h := f_no_drag ![c, -c - g / 2, c, -c - g] (by simp [V]; linarith)
    exact h
  simp only [RK4_step]
  rw [hs1, hst2, hs2, hst3, hs3, hst4, hs4]
  funext i; fin_cases i <;> simp <;> ring

lemma pmLoop_succ_pos (h : ℝ) (n : ℕ) (w : Fin 4 → ℝ) (hw : 0 ≤ w 1) :
    pmLoop h (n + 1) w =
      (match pmLoop h n (RK4_step f w h) with
       | none => none
       | some (X, Y) => some (RK4_step f w h 0 :: X, RK4_step f w h 1 :: Y)) := by
  simp [pmLoop, hw]

lemma pm_wit : projectile_motion 1 (-45) 2 =
    some ([820 * Real.sqrt 2], [-(820 * Real.sqrt 2) - g / 2]) := by
  have hc : (0 : ℝ) ≤ 820 * Real.sqrt 2 := by positivity
  have hg : (0 : ℝ) < g := by norm_num [g]
  unfold projectile_motion
  rw [shoot_neg45]
  have h0 : (0:ℝ) ≤ (![0, 0, 820 * Real.sqrt 2, -(820 * Real.sqrt 2)] : Fin 4 → ℝ) 1 := by
    simp
  rw [show (2 : ℕ) = 1 + 1 from rfl, pmLoop_succ_pos 1 1 _ h0, RK4_wit]
  have hneg : ¬ (0:ℝ) ≤ (![820 * Real.sqrt 2, -(820 * Real.sqrt 2) - g / 2,
      820 * Real.sqrt 2, -(820 * Real.sqrt 2) - g] : Fin 4 → ℝ) 1 := by
    simp
    nlinarith [Real.sqrt_nonneg 2]
  rw [pmLoop_exit 1 1 _ hneg]
  rfl

/-- Witness for C9: at `theta = -45` degrees and `h = 1` the simulation
terminates after exactly one RK4 step. -/
theorem projectile_motion_invariants_witness :
    projectile_motion 1 (-45) 2 =
      some ([820 * Real.sqrt 2], [-(820 * Real.sqrt 2) - g / 2]) ∧
    ([820 * Real.sqrt 2].length = [-(820 * Real.sqrt 2) - g / 2].length ∧
     1 ≤ [820 * Real.sqrt 2].length ∧
     [820 * Real.sqrt 2].head? = some (RK4_step f (shoot (-45) v_0) 1 0) ∧
     [-(820 * Real.sqrt 2) - g / 2].head? = some (RK4_step f (shoot (-45) v_0) 1 1) ∧
     (∀ i, i + 1 < [-(820 * Real.sqrt 2) - g / 2].length →
        0 ≤ [-(820 * Real.sqrt 2) - g / 2].getD i 0) ∧
     (∀ v, [-(820 * Real.sqrt 2) - g / 2].getLast? = some v → v < 0)) :=
  ⟨pm_wit, projectile_motion_invariants 1 (-45) 2 _ _ pm_wit⟩

/-! ## Optimizer sweep lemmas -/

lemma coarseLoop_norm (h : ℝ) (fuel : ℕ) : ∀ (l : List ℝ) (st : OptState),
    coarseLoop h fuel st l =
      (match simRanges h fuel l with
       | none => none
       | some (Except.error e) => some (Except.error e)
       | some (Except.ok rs) =>
         some (Except.ok
           { record := (List.foldl sweepUpd (st.record, st.optimal_angle) (l.zip rs)).1
             optimal_angle := (List.foldl sweepUpd (st.record, st.optimal_angle) (l.zip rs)).2
             theta_list := st.theta_list ++ l
             range_list := st.range_list ++ rs })) := by
  intro l
  induction l with
  | nil =>
    intro st
    obtain ⟨r, o, tl, rl⟩ := st
    simp [coarseLoop, simRanges]
  | cons theta rest ih =>
    intro st
    simp only [coarseLoop, simRanges]
    cases hsr : simRange h theta fuel with
    | none => simp [withOE]
    | some exc =>
      cases exc with
      | error e => simp [withOE]
      | ok x =>
        simp only [withOE]
        rw [ih]
        cases hrs : simRanges h fuel rest with
        | none => simp [withOE]
        | some exc2 =>
          cases exc2 with
          | error e => simp [withOE]
          | ok rs =>
            simp [withOE, List.append_assoc, Prod.mk.eta]

/-- Claim C8: the coarse pass tests exactly the 45 integer angles
`1, 3, ..., 89`; it records the `(angle, range)` pair of every tested angle
(the angle list is exactly the tested angles and the range list the
index-aligned estimated ranges), and it tracks the running maximum by
folding the `>=`-update over the (angle, range) pairs, an update under
which a later candidate whose range ties the record replaces the record's
angle (last wins). -/
theorem coarse_pass_structure (h : ℝ) (fuel : ℕ) :
    coarseAngles = (List.range 45).map (fun i : ℕ => 1 + 2 * (i : ℝ)) ∧
    (∀ (st : OptState) (l : List ℝ),
      coarseLoop h fuel st l =
        (match simRanges h fuel l with
         | none => none
         | some (Except.error e) => some (Except.error e)
         | some (Except.ok rs) =>
           some (Except.ok
             { record := (List.foldl sweepUpd (st.record, st.optimal_angle) (l.zip rs)).1
               optimal_angle := (List.foldl sweepUpd (st.record, st.optimal_angle) (l.zip rs)).2
               theta_list := st.theta_list ++ l
               range_list := st.range_list ++ rs }))) ∧
    (∀ (p : ℝ × ℝ) (l : List (ℝ × ℝ)) (theta x : ℝ),
      List.foldl sweepUpd p (l ++ [(theta, x)]) =
        (if x ≥ (List.foldl sweepUpd p l).1 then (x, theta)
         else List.foldl sweepUpd p l)) := by
  refine ⟨?_, fun st l => coarseLoop_norm h fuel l st, ?_⟩
  · unfold coarseAngles pyRange
    rw [show (90 - 1 + 2 - 1) / 2 = 45 from rfl, List.map_map]
    apply List.map_congr_left
    intro i _
    simp only [Function.comp_apply]
    push_cast
    ring
  · intro p l theta x
    simp [List.foldl_append, sweepUpd]

lemma refineLoop_const (h : ℝ) (fuel : ℕ) (ts x : ℝ)
    (hs : simRange h ts fuel = some (Except.ok x)) :
    ∀ (l : List ℝ) (p : ℝ × ℝ),
      refineLoop h fuel ts p l =
        some (Except.ok (List.foldl (fun q cnd => sweepUpd q (cnd, x)) p l)) := by
  intro l
  induction l with
  | nil => intro p; simp [refineLoop]
  | cons cnd rest ih =>
    intro p
    simp only [refineLoop]
    rw [hs]
    simp only [withOE]
    rw [ih]
    simp

lemma fold_stale_ge (x : ℝ) : ∀ (l : List ℝ) (d : ℝ),
    List.foldl (fun q cnd => sweepUpd q (cnd, x)) (x, d) l = (x, l.getLastD d) := by
  intro l
  induction l with
  | nil => intro d; simp
  | cons cnd rest ih =>
    intro d
    rw [List.foldl_cons]
    have h1 : sweepUpd (x, d) (cnd, x) = (x, cnd) := by simp [sweepUpd]
    rw [h1, ih cnd, List.getLastD_cons]

lemma fold_stale_lt (x r d : ℝ) (hlt : ¬ x ≥ r) : ∀ l : List ℝ,
    List.foldl (fun q cnd => sweepUpd q (cnd, x)) (r, d) l = (r, d) := by
  intro l
  induction l with
  | nil => simp
  | cons cnd rest ih =>
    rw [List.foldl_cons]
    have h1 : sweepUpd (r, d) (cnd, x) = (r, d) := by simp [sweepUpd, hlt]
    rw [h1, ih]

lemma theta_list_smaller_len (opt : ℝ) : (theta_list_smaller opt).length = 41 := by
  simp [theta_list_smaller, linspace]

lemma theta_list_smaller_ne_nil (opt : ℝ) : theta_list_smaller opt ≠ [] := by
  intro hnil
  have hl := theta_list_smaller_len opt
  rw [hnil] at hl
  simp at hl

lemma theta_list_smaller_getLastD (opt d : ℝ) :
    (theta_list_smaller opt).getLastD d = opt + 2 := by
  unfold theta_list_smaller linspace
  rw [show (41 : ℕ) = 40 + 1 from rfl, List.range_succ, List.map_append]
  simp only [List.map_cons, List.map_nil]
  rw [List.getLastD_concat]
  push_cast
  ring

/-- Claim C1 (refuted — code bug): the refine pass does generate the 41
candidates spanning ±2 degrees and updates the record with `>=`, but every
candidate iteration re-simulates `projectile_motion(h, theta)` with the
coarse loop's stale variable `theta = 89` (the last coarse angle), not with
the candidate `theta_small`.  Hence the whole refine pass depends only on
the range estimated at 89 degrees: it either leaves `(record, angle)`
unchanged, or — when that single range ties or beats the record — ends with
the *last* candidate, `coarse optimum + 2`. -/
theorem refine_pass_uses_stale_theta (h : ℝ) (fuel : ℕ) (r0 a0 : ℝ) :
    coarseAngles.getLastD 0 = 89 ∧
    (theta_list_smaller a0).length = 41 ∧
    refineLoop h fuel 89 (r0, a0) (theta_list_smaller a0) =
      (match simRange h 89 fuel with
       | none => none
       | some (Except.error e) => some (Except.error e)
       | some (Except.ok x) =>
         some (Except.ok (if x ≥ r0 then (x, a0 + 2) else (r0, a0)))) := by
  refine ⟨?_, theta_list_smaller_len a0, ?_⟩
  · unfold coarseAngles pyRange
    rw [show (90 - 1 + 2 - 1) / 2 = 45 from rfl, show (45 : ℕ) = 44 + 1 from rfl,
      List.range_succ, List.map_append, List.map_append]
    simp only [List.map_cons, List.map_nil]
    rw [List.getLastD_concat]
    norm_num
  · obtain ⟨c0, rest, hL⟩ : ∃ c0 rest, theta_list_smaller a0 = c0 :: rest := by
      cases hLc : theta_list_smaller a0 with
      | nil => exact absurd hLc (theta_list_smaller_ne_nil a0)
      | cons c0 rest => exact ⟨c0, rest, rfl⟩
    cases hsr : simRange h 89 fuel with
    | none =>
      rw [hL]
      simp only [refineLoop]
      rw [hsr]
      simp [withOE]
    | some exc =>
      cases exc with
      | error e =>
        rw [hL]
        simp only [refineLoop]
        rw [hsr]
        simp [withOE]
      | ok x =>
        rw [refineLoop_const h fuel 89 x hsr]
        by_cases hge : x ≥ r0
        · rw [hL, List.foldl_cons]
          have h1 : sweepUpd (r0, a0) (c0, x) = (x, c0) := by simp [sweepUpd, hge]
          rw [h1, fold_stale_ge x rest c0]
          have h2 : rest.getLastD c0 = a0 + 2 := by
            have h3 := theta_list_smaller_getLastD a0 c0
            rw [hL, List.getLastD_cons] at h3
            exact h3
          rw [h2]
          simp [hge]
        · rw [fold_stale_lt x r0 a0 hge]
          simp [hge]
end Tubes
